import Mathlib

/-!
Verification of the incident-summarizer's data aggregation and redaction
pipeline (`src/streamlit_app.py`), shallowly embedded in Lean.

Texts are `String` / `List Char`.  Python's `re.sub` on the three sensitive
patterns is embedded by a small backtracking matcher: each of the three
patterns is a sequence of greedy character-class repetitions and word
boundaries, which is exactly the fragment the matcher implements, with
Python's leftmost, greedy-with-backtracking, non-overlapping substitution
order.  Word characters follow Python's ASCII `\w` (letters, digits,
underscore).
-/

namespace TicketSummarizer

/-- ASCII word character, Python `\w`: letters, digits, underscore. -/
def isWordChar (c : Char) : Bool := c.isAlphanum || c = '_'

/-- Python `\b`: true when exactly one side of the position is a word
character; a missing side (edge of the string) counts as non-word. -/
def wordBoundary (prev next : Option Char) : Bool :=
  (match prev with | some c => isWordChar c | none => false)
    != (match next with | some c => isWordChar c | none => false)

/-- One item of a pattern: a greedy repetition of a character class between
`lo` and `hi` occurrences (`hi = none`: unbounded), or a word boundary. -/
inductive RItem where
  | cls (p : Char → Bool) (lo : Nat) (hi : Option Nat)
  | wordB

/-- Length of the maximal prefix run of characters satisfying `p`. -/
def runLen (p : Char → Bool) : List Char → Nat
  | [] => 0
  | c :: s => if p c then runLen p s + 1 else 0

/-- First `some` element of a list of options. -/
def firstSome {α : Type} : List (Option α) → Option α
  | [] => none
  | some a :: _ => some a
  | none :: l => firstSome l

/-- `[m, m-1, ..., lo]` (empty when `m < lo`): greedy backtracking order. -/
def descRange (m lo : Nat) : List Nat :=
  (List.range (m + 1 - lo)).map (fun i => m - i)

/-- The character immediately before the current position after consuming
`consumed`; falls back to the previous context when nothing was consumed. -/
def prevAfter (prev : Option Char) (consumed : List Char) : Option Char :=
  match consumed.getLast? with
  | some c => some c
  | none => prev

/-- Greedy backtracking matcher: length of the match of `items` at the head
of `s` (with `prev` the character before `s`), or `none`.  Greedy classes
try the longest feasible count first and backtrack, exactly Python's
backtracking order for this pattern fragment. -/
def matchPat : List RItem → Option Char → List Char → Option Nat
  | [], _, _ => some 0
  | .wordB :: rest, prev, s =>
      if wordBoundary prev s.head? then matchPat rest prev s else none
  | .cls p lo hi :: rest, prev, s =>
      let r := runLen p s
      let m := match hi with | some h => min r h | none => r
      firstSome ((descRange m lo).map (fun n =>
        (matchPat rest (prevAfter prev (s.take n)) (s.drop n)).map (fun k => n + k)))

/-- Python `re.sub` scan: walk left to right, at each position try the
pattern; on a match emit `repl` and continue after the match, otherwise
keep the character.  (The three sensitive patterns never match the empty
string, so the zero-width case keeps the character.) -/
def subScan (pat : List RItem) (repl : List Char) : Option Char → List Char → List Char
  | _, [] => []
  | prev, c :: s =>
      match matchPat pat prev (c :: s) with
      | some (n + 1) =>
          repl ++ subScan pat repl (prevAfter prev (c :: s.take n)) (s.drop n)
      | _ => c :: subScan pat repl (some c) s
termination_by _ s => s.length
decreasing_by
  all_goals simp [List.length_drop]
  omega

/-- `re.sub(pat, repl, s)`. -/
def reSub (pat : List RItem) (repl : List Char) (s : List Char) : List Char :=
  subScan pat repl none s

/-- A single mandatory literal character. -/
def litItem (c : Char) : RItem := .cls (fun d => d = c) 1 (some 1)

/-- `[A-Za-z0-9._%+-]` (local part of the email pattern). -/
def emailLocalChar (c : Char) : Bool :=
  c.isAlphanum || c = '.' || c = '_' || c = '%' || c = '+' || c = '-'

/-- `[A-Za-z0-9.-]` (domain part of the email pattern). -/
def emailDomainChar (c : Char) : Bool := c.isAlphanum || c = '.' || c = '-'

/-- `[A-Z|a-z]` (top-level-domain part; the source class contains a literal
`|`). -/
def emailTldChar (c : Char) : Bool := c.isAlpha || c = '|'

/-- `\b[A-Za-z0-9._%+-]+@[A-Za-z0-9.-]+\.[A-Z|a-z]{2,}\b`. -/
def emailPattern : List RItem :=
  [.wordB, .cls emailLocalChar 1 none, litItem '@',
   .cls emailDomainChar 1 none, litItem '.', .cls emailTldChar 2 none, .wordB]

/-- `\b\d{10}\b`. -/
def phonePattern : List RItem :=
  [.wordB, .cls Char.isDigit 10 (some 10), .wordB]

/-- `\b\d{3}-\d{2}-\d{4}\b`. -/
def ssnPattern : List RItem :=
  [.wordB, .cls Char.isDigit 3 (some 3), litItem '-',
   .cls Char.isDigit 2 (some 2), litItem '-', .cls Char.isDigit 4 (some 4), .wordB]

/-- The replacement token `[REDACTED]`. -/
def redactedToken : List Char := "[REDACTED]".data

/-- `sensitive_patterns`, in the source's (dict-insertion) order:
email, phone, ssn. -/
def sensitivePatterns : List (List RItem) := [emailPattern, phonePattern, ssnPattern]

/-- `redact_sensitive_info`: apply the three substitutions in order. -/
def redact_sensitive_info (text : String) : String :=
  ⟨sensitivePatterns.foldl (fun t pat => reSub pat redactedToken t) text.data⟩

/-! ### Notes, incidents and observable effects -/

/-- A journal note as delivered by the backend: a record in which any of the
three fields used by the app may be absent (`'element' in note` checks). -/
structure NoteRec where
  element : Option String
  sys_created_on : Option String
  value : Option String
deriving DecidableEq

/-- `'element' in note and 'sys_created_on' in note and 'value' in note`. -/
def noteComplete (n : NoteRec) : Bool :=
  n.element.isSome && n.sys_created_on.isSome && n.value.isSome

/-- The line emitted for a complete note:
`f"{note_type} ({note['sys_created_on']}): {note['value']}\n"` with
`note_type = 'Work Note' if note['element'] == 'work_notes' else
'Additional Comment'`. -/
def noteLine (n : NoteRec) : String :=
  (if n.element.getD "" = "work_notes" then "Work Note" else "Additional Comment")
    ++ " (" ++ n.sys_created_on.getD "" ++ "): " ++ n.value.getD "" ++ "\n"

/-- An incident record (fields the app reads). -/
structure Incident where
  number : String
  sys_id : String
  description : String
  priority : String
  state : String
  opened_at : String
  resolved_at : String
deriving DecidableEq

/-- `state_mapping.get(state, "Unknown State")`. -/
def state_mapping (code : String) : String :=
  if code = "1" then "New"
  else if code = "2" then "In Progress"
  else if code = "3" then "On Hold"
  else if code = "4" then "Awaiting Info"
  else if code = "5" then "Resolved"
  else if code = "6" then "Closed"
  else if code = "7" then "Canceled"
  else "Unknown State"

/-- Observable effects of a user action, in emission order: UI messages
(`st.write` / `st.info` / `st.error`) and outbound service calls. -/
inductive UIEvent where
  | writeSkipNotice (n : NoteRec)
  | infoMsg (s : String)
  | errorMsg (s : String)
  | incidentFetch (number : String)
  | noteFetch (sysId : String)
  | completionCall (prompt : String)
  | chatCall (prompt : String)
deriving DecidableEq

/-- Events that are note fetches. -/
def isNoteFetch : UIEvent → Bool
  | .noteFetch _ => true
  | _ => false

/-- Events that are summarization (language-model) calls. -/
def isSummarizationCall : UIEvent → Bool
  | .completionCall _ => true
  | .chatCall _ => true
  | _ => false

/-- Events visible to the user as messages. -/
def isMessage : UIEvent → Bool
  | .writeSkipNotice _ => true
  | .infoMsg _ => true
  | .errorMsg _ => true
  | _ => false

/-- Events that are the "Skipping note due to missing fields" notice. -/
def isSkipNotice : UIEvent → Bool
  | .writeSkipNotice _ => true
  | _ => false

/-! ### Aggregation and summarization -/

/-- The `combined_notes` loop of `summarize_incident`: complete notes
contribute their line, incomplete notes are skipped with a visible
`st.write` notice. -/
def combinedNotesSummary : List NoteRec → String × List UIEvent
  | [] => ("", [])
  | n :: rest =>
      let tail := combinedNotesSummary rest
      if noteComplete n then (noteLine n ++ tail.1, tail.2)
      else (tail.1, UIEvent.writeSkipNotice n :: tail.2)

/-- The `combined_notes` loop of `fetch_detailed_resolution_steps`:
identical except that its `if` has no `else` branch, so incomplete notes
are skipped without any notice. -/
def combinedNotesResolution : List NoteRec → String
  | [] => ""
  | n :: rest =>
      if noteComplete n then noteLine n ++ combinedNotesResolution rest
      else combinedNotesResolution rest

/-- `summarize_text(text, task)`: builds the completion prompt and calls the
language model; the model is an oracle `llm` returning the trimmed result
text, or `none` when the call raises (then an error message is shown and
`None` returned). -/
def summarize_text (llm : String → Option String) (text : String) (task : String) :
    Option String × List UIEvent :=
  let prompt := task ++ " the following ticket notes:\n\n" ++ text ++ "\n\nResult:"
  match llm prompt with
  | some r => (some r, [UIEvent.completionCall prompt])
  | none => (none, [UIEvent.completionCall prompt,
                    UIEvent.errorMsg "An error occurred"])

/-- The `incident_summary` dict built by `summarize_incident`. -/
structure IncidentSummary where
  number : String
  description : String
  priority : String
  resolved_at : String
  opened_at : String
  state : String
deriving DecidableEq

/-- `summarize_incident`: aggregate the notes (with skip notices), redact,
summarize, and build the incident summary record. -/
def summarize_incident (llm : String → Option String) (incident_data : Incident)
    (incident_notes : List NoteRec) :
    (IncidentSummary × Option String) × List UIEvent :=
  let agg := combinedNotesSummary incident_notes
  let cleaned := redact_sensitive_info agg.1
  let sum := summarize_text llm cleaned "Summarize"
  (({ number := incident_data.number, description := incident_data.description,
      priority := incident_data.priority, resolved_at := incident_data.resolved_at,
      opened_at := incident_data.opened_at,
      state := state_mapping incident_data.state }, sum.1),
   agg.2 ++ sum.2)

/-- `fetch_detailed_resolution_steps`: aggregate (silently skipping
incomplete notes), redact, and call the chat endpoint. -/
def fetch_detailed_resolution_steps (chat : String → Option String)
    (incident_data : Incident) (incident_notes : List NoteRec) :
    Option String × List UIEvent :=
  let cleaned := redact_sensitive_info (combinedNotesResolution incident_notes)
  let prompt := "Provide detailed resolution steps for incident "
      ++ incident_data.number ++ ":\n\n" ++ cleaned ++ "\n\nSteps:"
  match chat prompt with
  | some r => (some r, [UIEvent.chatCall prompt])
  | none => (none, [UIEvent.chatCall prompt, UIEvent.errorMsg "An error occurred"])

/-! ### Session state and the three button handlers -/

/-- `st.session_state`: the five components held across interactions. -/
structure SessionState where
  incident_data : Option Incident
  incident_notes : Option (List NoteRec)
  summarized_notes : Option String
  resolution_steps : Option String
  incident_number : Option String
deriving DecidableEq

/-- The remote services, as oracles: incident lookup (`None` = not found or
HTTP failure), note fetch (empty on failure), and the two language-model
endpoints (`none` = the call raised). -/
structure Backend where
  fetchIncident : String → Option Incident
  fetchNotes : String → List NoteRec
  completion : String → Option String
  chat : String → Option String

/-- The "Summarize Incident" button handler (`entered` is the text input;
Python's `if incident_number:` is string truthiness, i.e. non-empty).
Returns the new session state and the emitted events. -/
def summarizeButtonAction (b : Backend) (entered : String) (s : SessionState) :
    SessionState × List UIEvent :=
  if entered ≠ "" then
    let s1 := { s with incident_number := some entered }
    match b.fetchIncident entered with
    | some d =>
        let notes := b.fetchNotes d.sys_id
        let res := summarize_incident b.completion d notes
        ({ s1 with incident_data := some d, incident_notes := some notes,
                   summarized_notes := res.1.2, resolution_steps := none },
         UIEvent.incidentFetch entered :: UIEvent.noteFetch d.sys_id :: res.2)
    | none =>
        (s1, [UIEvent.incidentFetch entered, UIEvent.errorMsg "Incident not found."])
  else (s, [])

/-- The "Clear" button handler: reset all five components. -/
def clearButtonAction (_ : SessionState) : SessionState :=
  { incident_data := none, incident_notes := none, summarized_notes := none,
    resolution_steps := none, incident_number := none }

/-- The "Resolution Steps" button handler: refuses (with an informational
message) when the incident state code is `'6'`, `'5'` or `'7'`. -/
def resolutionButtonAction (b : Backend) (entered : String) (s : SessionState) :
    SessionState × List UIEvent :=
  if entered ≠ "" then
    match b.fetchIncident entered with
    | some d =>
        if d.state = "6" || d.state = "5" || d.state = "7" then
          (s, [UIEvent.incidentFetch entered,
               UIEvent.infoMsg
                 "Resolution steps are not available for Canceled or Closed or Resolved incidents."])
        else
          let notes := b.fetchNotes d.sys_id
          let res := fetch_detailed_resolution_steps b.chat d notes
          ({ s with incident_data := some d, incident_notes := some notes,
                    resolution_steps := res.1 },
           UIEvent.incidentFetch entered :: UIEvent.noteFetch d.sys_id :: res.2)
    | none =>
        (s, [UIEvent.incidentFetch entered, UIEvent.errorMsg "Incident not found."])
  else (s, [UIEvent.errorMsg "Please enter an incident number."])

/-! ### Attachments -/

/-- Attachment metadata; the source guards on `'sys_id' in attachment`, so
that key is modelled as optional, while `file_name` is read directly. -/
structure AttachmentMeta where
  file_name : String
  sys_id : Option String
deriving DecidableEq

/-- `image_extensions`. -/
def image_extensions : List String :=
  [".png", ".jpg", ".jpeg", ".gif", ".bmp", ".tiff"]

/-- `str.lower()` (ASCII case folding, as in these file names). -/
def pyLower (s : String) : String := ⟨s.data.map Char.toLower⟩

/-- `str.endswith(suffix)`. -/
def pyEndsWith (s suffix : String) : Bool := suffix.data.isSuffixOf s.data

/-- `any(file_name.lower().endswith(ext) for ext in image_extensions)`. -/
def isImageName (file_name : String) : Bool :=
  image_extensions.any (fun ext => pyEndsWith (pyLower file_name) ext)

/-- One entry of the list built by `summarize_attachments`. -/
structure AttachmentSummary where
  fileName : String
  summary : Option String
deriving DecidableEq

/-- `summarize_attachments`: skip image-named attachments; for the rest,
require a `sys_id`, fetch the bytes (`fetchData`, `none` = failed download),
and only when the byte string is non-empty (`if file_data:`) decode it
(`decode` models `bytes.decode('utf-8', errors='ignore')`) and summarize.
Bytes are lists of `Nat` codes. -/
def summarize_attachments (fetchData : String → Option (List Nat))
    (decode : List Nat → String) (llm : String → Option String) :
    List AttachmentMeta → List AttachmentSummary × List UIEvent
  | [] => ([], [])
  | a :: rest =>
      let tail := summarize_attachments fetchData decode llm rest
      if isImageName a.file_name then tail
      else
        match a.sys_id with
        | some sid =>
            match fetchData sid with
            | some bytes =>
                if bytes ≠ [] then
                  let res := summarize_text llm (decode bytes) "Summarize"
                  ({ fileName := a.file_name, summary := res.1 } :: tail.1,
                   res.2 ++ tail.2)
                else tail
            | none => tail
        | none => tail

/-! ### Incident fetch over HTTP -/

/-- An HTTP response to the incident query.  `jsonBody = none` models a body
on which `.json()` raises; `some none` a JSON object whose `result` key is
absent (or null); `some (some l)` a `result` list `l`. -/
structure HttpResponse where
  status_code : Nat
  jsonBody : Option (Option (List Incident))

/-- `fetch_incident_data` on a given response: only a 200 response is
examined at all; a parse failure there is an uncaught exception
(`Except.error`), otherwise the first record of a non-empty `result` list
is returned, and `none` in every other case. -/
def fetch_incident_data (resp : HttpResponse) : Except String (Option Incident) :=
  if resp.status_code = 200 then
    match resp.jsonBody with
    | none => .error "json decode error"
    | some none => .ok none
    | some (some []) => .ok none
    | some (some (d :: _)) => .ok (some d)
  else .ok none

/-! ### Relational specification of one substitution pass

`SubRel pat repl prev s out` states, position by position, exactly what
"replace every occurrence of the pattern by the token and change nothing
else" means: wherever no occurrence of the pattern starts, the character is
copied unchanged; wherever an occurrence starts, that occurrence is
replaced by exactly `repl` and scanning resumes right after it. -/
inductive SubRel (pat : List RItem) (repl : List Char) :
    Option Char → List Char → List Char → Prop
  | nil (prev : Option Char) : SubRel pat repl prev [] []
  | keep {prev : Option Char} {c : Char} {s out : List Char}
      (hnm : matchPat pat prev (c :: s) = none)
      (htail : SubRel pat repl (some c) s out) :
      SubRel pat repl prev (c :: s) (c :: out)
  | redactHere {prev : Option Char} {c : Char} {s out : List Char} {n : Nat}
      (hm : matchPat pat prev (c :: s) = some (n + 1))
      (htail : SubRel pat repl (prevAfter prev (c :: s.take n)) (s.drop n) out) :
      SubRel pat repl prev (c :: s) (repl ++ out)

/-- Word-character status of an optional character (edge = non-word). -/
def wclass : Option Char → Bool
  | some c => isWordChar c
  | none => false

/-- Match derivations: `Parses items prev s m` holds when the item list can
consume exactly the first `m` characters of `s` (with `prev` the character
before `s`), each class repetition taking any count within its bounds. -/
inductive Parses : List RItem → Option Char → List Char → Nat → Prop
  | nil (prev : Option Char) (s : List Char) : Parses [] prev s 0
  | wordB {rest : List RItem} {prev : Option Char} {s : List Char} {m : Nat}
      (hb : wordBoundary prev s.head? = true)
      (h : Parses rest prev s m) : Parses (RItem.wordB :: rest) prev s m
  | cls {p : Char → Bool} {lo : Nat} {hi : Option Nat} {rest : List RItem}
      {prev : Option Char} {u v : List Char} {m : Nat}
      (hu : ∀ c ∈ u, p c = true)
      (hlo : lo ≤ u.length)
      (hhi : ∀ b ∈ hi, u.length ≤ b)
      (h : Parses rest (prevAfter prev u) v m) :
      Parses (RItem.cls p lo hi :: rest) prev (u ++ v) (u.length + m)

/-- No occurrence of the pattern starts at any position of `out`, scanning
with base context `prev`. -/
def NoP (pat : List RItem) (prev : Option Char) (out : List Char) : Prop :=
  ∀ u v m, out = u ++ v → ¬ Parses pat (prevAfter prev u) v m

end TicketSummarizer

namespace TicketSummarizer

/-! ## Theorems -/

lemma firstSome_map_some {α β : Type} (f : α → Option β) (l : List α) (b : β)
    (h : firstSome (l.map f) = some b) : ∃ a ∈ l, f a = some b := by
  induction l with
  | nil => simp [firstSome] at h
  | cons x xs ih =>
      rw [List.map_cons] at h
      cases hx : f x with
      | some y =>
          rw [hx] at h
          exact ⟨x, List.mem_cons_self x xs, hx.trans h⟩
      | none =>
          rw [hx] at h
          obtain ⟨a, ha, hfa⟩ := ih h
          exact ⟨a, List.mem_cons_of_mem x ha, hfa⟩

lemma descRange_mem {m lo x : Nat} (h : x ∈ descRange m lo) : lo ≤ x ∧ x ≤ m := by
  simp only [descRange, List.mem_map, List.mem_range] at h
  obtain ⟨i, hi, rfl⟩ := h
  omega

lemma matchPat_wordB_some {rest : List RItem} {prev : Option Char}
    {s : List Char} {n : Nat}
    (h : matchPat (RItem.wordB :: rest) prev s = some n) :
    matchPat rest prev s = some n := by
  simp only [matchPat] at h
  split at h
  · exact h
  · exact absurd h (by simp)

lemma matchPat_cls_le {p : Char → Bool} {lo : Nat} {hi : Option Nat}
    {rest : List RItem} {prev : Option Char} {s : List Char} {n : Nat}
    (h : matchPat (RItem.cls p lo hi :: rest) prev s = some n) : lo ≤ n := by
  simp only [matchPat] at h
  obtain ⟨a, ha, hfa⟩ := firstSome_map_some _ _ _ h
  have hlo := (descRange_mem ha).1
  cases hmk : matchPat rest (prevAfter prev (s.take a)) (s.drop a) with
  | none => rw [hmk] at hfa; simp at hfa
  | some k => rw [hmk] at hfa
              have hakn : a + k = n := by simpa using hfa
              omega

lemma matchPat_emailPattern_pos {prev : Option Char} {s : List Char} {n : Nat}
    (h : matchPat emailPattern prev s = some n) : 1 ≤ n :=
  matchPat_cls_le (matchPat_wordB_some h)

lemma matchPat_phonePattern_pos {prev : Option Char} {s : List Char} {n : Nat}
    (h : matchPat phonePattern prev s = some n) : 1 ≤ n :=
  le_trans (by omega) (matchPat_cls_le (matchPat_wordB_some h))

lemma matchPat_ssnPattern_pos {prev : Option Char} {s : List Char} {n : Nat}
    (h : matchPat ssnPattern prev s = some n) : 1 ≤ n :=
  le_trans (by omega) (matchPat_cls_le (matchPat_wordB_some h))

lemma subScan_subRel_bounded (pat : List RItem) (repl : List Char)
    (hpos : ∀ prev s n, matchPat pat prev s = some n → 1 ≤ n) :
    ∀ N s prev, List.length s ≤ N →
      SubRel pat repl prev s (subScan pat repl prev s) := by
  intro N
  induction N with
  | zero =>
      intro s prev h
      have hs : s = [] := List.length_eq_zero.mp (Nat.le_zero.mp h)
      subst hs
      rw [show subScan pat repl prev [] = [] from by rw [subScan]]
      exact SubRel.nil prev
  | succ N ih =>
      intro s prev h
      match s with
      | [] =>
          rw [show subScan pat repl prev [] = [] from by rw [subScan]]
          exact SubRel.nil prev
      | c :: s' =>
          cases hm : matchPat pat prev (c :: s') with
          | none =>
              have heq : subScan pat repl prev (c :: s') =
                  c :: subScan pat repl (some c) s' := by
                rw [subScan, hm]
              rw [heq]
              exact SubRel.keep hm (ih s' (some c) (by simpa using Nat.le_of_succ_le_succ h))
          | some n =>
              match n, hm with
              | 0, hm => exact absurd (hpos _ _ _ hm) (by omega)
              | n + 1, hm =>
                  have heq : subScan pat repl prev (c :: s') =
                      repl ++ subScan pat repl (prevAfter prev (c :: s'.take n)) (s'.drop n) := by
                    rw [subScan, hm]
                  rw [heq]
                  refine SubRel.redactHere hm (ih _ _ ?_)
                  have hd : (s'.drop n).length ≤ s'.length := by
                    rw [List.length_drop]; omega
                  have hs' : s'.length ≤ N := by
                    simpa using Nat.le_of_succ_le_succ h
                  omega

lemma reSub_subRel (pat : List RItem) (repl : List Char)
    (hpos : ∀ prev s n, matchPat pat prev s = some n → 1 ≤ n) (s : List Char) :
    SubRel pat repl none s (reSub pat repl s) :=
  subScan_subRel_bounded pat repl hpos s.length s none le_rfl

/-- C1: for every input text, `redact_sensitive_info` performs the three
pattern substitutions in the source's fixed order (email, then ten-digit
phone, then SSN `DDD-DD-DDDD`); in each pass every occurrence of the
pattern is replaced by exactly the literal token `[REDACTED]`, and every
character not part of such an occurrence is copied unchanged (`SubRel` is
precisely that position-by-position specification). -/
theorem redact_replaces_every_match (t : String) :
    ∃ t1 t2 : List Char,
      SubRel emailPattern redactedToken none t.data t1 ∧
      SubRel phonePattern redactedToken none t1 t2 ∧
      SubRel ssnPattern redactedToken none t2 (redact_sensitive_info t).data := by
  refine ⟨reSub emailPattern redactedToken t.data,
          reSub phonePattern redactedToken (reSub emailPattern redactedToken t.data),
          reSub_subRel _ _ (fun _ _ _ h => matchPat_emailPattern_pos h) _,
          reSub_subRel _ _ (fun _ _ _ h => matchPat_phonePattern_pos h) _,
          ?_⟩
  have hdata : (redact_sensitive_info t).data =
      reSub ssnPattern redactedToken
        (reSub phonePattern redactedToken (reSub emailPattern redactedToken t.data)) := rfl
  rw [hdata]
  exact reSub_subRel _ _ (fun _ _ _ h => matchPat_ssnPattern_pos h) _

/-- C2: when every note has its three fields, aggregation emits, in input
order, one line per note of the form
`"<Work Note|Additional Comment> (<sys_created_on>): <value>\n"`, the label
being `"Work Note"` exactly when `element = "work_notes"`. -/
theorem aggregation_line_format (notes : List NoteRec)
    (h : ∀ n ∈ notes, noteComplete n = true) :
    (combinedNotesSummary notes).1 =
      notes.foldr (fun n acc =>
        (if n.element = some "work_notes" then "Work Note" else "Additional Comment")
          ++ " (" ++ n.sys_created_on.getD "" ++ "): " ++ n.value.getD "" ++ "\n"
          ++ acc) "" := by
  induction notes with
  | nil => rfl
  | cons n rest ih =>
      have hn : noteComplete n = true := h n (by simp)
      have hrest := ih (fun m hm => h m (by simp [hm]))
      simp only [combinedNotesSummary, hn, if_true, List.foldr]
      rw [hrest]
      obtain ⟨e, he⟩ : ∃ e, n.element = some e := by
        have : n.element.isSome = true := by
          simp [noteComplete] at hn; exact hn.1.1
        exact Option.isSome_iff_exists.mp this
      simp [noteLine, he]

/-- Witness for C2 at the spec's two-note input: the aggregated text is
exactly `"Work Note (t1): a\nAdditional Comment (t2): b\n"`. -/
theorem aggregation_line_format_witness :
    (∀ n ∈ ([⟨some "work_notes", some "t1", some "a"⟩,
             ⟨some "comments", some "t2", some "b"⟩] : List NoteRec),
        noteComplete n = true) ∧
    (combinedNotesSummary
        [⟨some "work_notes", some "t1", some "a"⟩,
         ⟨some "comments", some "t2", some "b"⟩]).1 =
      "Work Note (t1): a\nAdditional Comment (t2): b\n" :=
  ⟨by decide,
   (aggregation_line_format
      [⟨some "work_notes", some "t1", some "a"⟩,
       ⟨some "comments", some "t2", some "b"⟩] (by decide)).trans (by decide)⟩

/-- C3 fails as stated: in the resolution-steps aggregation path a note
missing a required field is skipped, but no visible notice of the skip is
emitted (the source's loop there has no `else` branch), so the skipping is
silent rather than reported. -/
theorem resolution_skip_unreported :
    noteComplete ⟨some "work_notes", some "t1", none⟩ = false ∧
    combinedNotesResolution [⟨some "work_notes", some "t1", none⟩] = "" ∧
    (fetch_detailed_resolution_steps (fun _ => some "S")
        ⟨"INC42", "sid", "d", "1", "2", "o", "r"⟩
        [⟨some "work_notes", some "t1", none⟩]).2.filter isSkipNotice = [] := by
  decide

/-- C3 (amended): in both aggregation paths a note missing a required field
is excluded from the aggregated text, does not shift the lines of the other
notes, and does not abort aggregation; the skip is reported with a visible
notice in the summary path, while the resolution-steps path skips it
silently (it emits no skip notice at all). -/
theorem incomplete_note_skipped (pre post : List NoteRec) (bad : NoteRec)
    (hbad : noteComplete bad = false) :
    (combinedNotesSummary (pre ++ bad :: post)).1 =
      (combinedNotesSummary (pre ++ post)).1 ∧
    combinedNotesResolution (pre ++ bad :: post) =
      combinedNotesResolution (pre ++ post) ∧
    UIEvent.writeSkipNotice bad ∈ (combinedNotesSummary (pre ++ bad :: post)).2 ∧
    ∀ chat d notes,
      (fetch_detailed_resolution_steps chat d notes).2.filter isSkipNotice = [] := by
  refine ⟨?_, ?_, ?_, ?_⟩
  · induction pre with
    | nil => simp [combinedNotesSummary, hbad]
    | cons p pre ih =>
        simp only [List.cons_append, combinedNotesSummary]
        cases hp : noteComplete p <;> simp [ih]
  · induction pre with
    | nil => simp [combinedNotesResolution, hbad]
    | cons p pre ih =>
        simp only [List.cons_append, combinedNotesResolution]
        cases hp : noteComplete p <;> simp [ih]
  · induction pre with
    | nil => simp [combinedNotesSummary, hbad]
    | cons p pre ih =>
        simp only [List.cons_append, combinedNotesSummary]
        cases hp : noteComplete p <;> simp [ih]
  · intro chat d notes
    simp only [fetch_detailed_resolution_steps]
    split <;> simp [isSkipNotice, List.filter]

/-- Witness for C3's amended theorem at the concrete input
`[work-note, note-missing-value, comment]`. -/
theorem incomplete_note_skipped_witness :
    noteComplete ⟨some "work_notes", some "t1", none⟩ = false ∧
    ((combinedNotesSummary
        [⟨some "work_notes", some "ta", some "a"⟩,
         ⟨some "work_notes", some "t1", none⟩,
         ⟨some "comments", some "tb", some "b"⟩]).1 =
      (combinedNotesSummary
        [⟨some "work_notes", some "ta", some "a"⟩,
         ⟨some "comments", some "tb", some "b"⟩]).1 ∧
    combinedNotesResolution
        [⟨some "work_notes", some "ta", some "a"⟩,
         ⟨some "work_notes", some "t1", none⟩,
         ⟨some "comments", some "tb", some "b"⟩] =
      combinedNotesResolution
        [⟨some "work_notes", some "ta", some "a"⟩,
         ⟨some "comments", some "tb", some "b"⟩] ∧
    UIEvent.writeSkipNotice ⟨some "work_notes", some "t1", none⟩ ∈
      (combinedNotesSummary
        [⟨some "work_notes", some "ta", some "a"⟩,
         ⟨some "work_notes", some "t1", none⟩,
         ⟨some "comments", some "tb", some "b"⟩]).2 ∧
    ∀ chat d notes,
      (fetch_detailed_resolution_steps chat d notes).2.filter isSkipNotice = []) :=
  ⟨by decide,
   incomplete_note_skipped
     [⟨some "work_notes", some "ta", some "a"⟩]
     [⟨some "comments", some "tb", some "b"⟩]
     ⟨some "work_notes", some "t1", none⟩ (by decide)⟩

/-- C4: when the looked-up incident's state code is 5, 6 or 7, the
Resolution Steps handler performs no note fetch, no summarization call,
emits the informational message as its only message, and leaves the whole
session state unchanged. -/
theorem resolution_refused_for_closed (b : Backend) (entered : String)
    (s : SessionState) (d : Incident)
    (hne : entered ≠ "")
    (hfetch : b.fetchIncident entered = some d)
    (hstate : d.state = "5" ∨ d.state = "6" ∨ d.state = "7") :
    (resolutionButtonAction b entered s).1 = s ∧
    (resolutionButtonAction b entered s).2.filter isNoteFetch = [] ∧
    (resolutionButtonAction b entered s).2.filter isSummarizationCall = [] ∧
    (resolutionButtonAction b entered s).2.filter isMessage =
      [UIEvent.infoMsg
        "Resolution steps are not available for Canceled or Closed or Resolved incidents."] := by
  have hcond : (d.state = "6" || d.state = "5" || d.state = "7") = true := by
    rcases hstate with h | h | h <;> simp [h]
  simp [resolutionButtonAction, hne, hfetch, hcond, isNoteFetch,
        isSummarizationCall, isMessage, List.filter]

/-- Witness for C4 at a concrete closed incident and backend. -/
theorem resolution_refused_for_closed_witness :
    ("INC1" : String) ≠ "" ∧
    (Backend.mk (fun _ => some ⟨"INC1", "S", "d", "1", "5", "o", "r"⟩)
        (fun _ => []) (fun _ => some "x") (fun _ => some "y")).fetchIncident "INC1"
      = some ⟨"INC1", "S", "d", "1", "5", "o", "r"⟩ ∧
    ((resolutionButtonAction
        (Backend.mk (fun _ => some ⟨"INC1", "S", "d", "1", "5", "o", "r"⟩)
          (fun _ => []) (fun _ => some "x") (fun _ => some "y"))
        "INC1" ⟨none, none, none, none, none⟩).1 = ⟨none, none, none, none, none⟩ ∧
     (resolutionButtonAction
        (Backend.mk (fun _ => some ⟨"INC1", "S", "d", "1", "5", "o", "r"⟩)
          (fun _ => []) (fun _ => some "x") (fun _ => some "y"))
        "INC1" ⟨none, none, none, none, none⟩).2.filter isNoteFetch = [] ∧
     (resolutionButtonAction
        (Backend.mk (fun _ => some ⟨"INC1", "S", "d", "1", "5", "o", "r"⟩)
          (fun _ => []) (fun _ => some "x") (fun _ => some "y"))
        "INC1" ⟨none, none, none, none, none⟩).2.filter isSummarizationCall = [] ∧
     (resolutionButtonAction
        (Backend.mk (fun _ => some ⟨"INC1", "S", "d", "1", "5", "o", "r"⟩)
          (fun _ => []) (fun _ => some "x") (fun _ => some "y"))
        "INC1" ⟨none, none, none, none, none⟩).2.filter isMessage =
      [UIEvent.infoMsg
        "Resolution steps are not available for Canceled or Closed or Resolved incidents."]) :=
  ⟨by decide, rfl,
   resolution_refused_for_closed _ "INC1" ⟨none, none, none, none, none⟩
     ⟨"INC1", "S", "d", "1", "5", "o", "r"⟩ (by decide) rfl (Or.inl rfl)⟩

/-- C5 fails as stated: on a not-found lookup the Summarize handler has
already stored the entered identifier, so the last-entered-identifier
component of the session state changes (here from `"INC1"` to `"INC2"`). -/
theorem summarize_notfound_mutates_identifier :
    (summarizeButtonAction
        (Backend.mk (fun _ => none) (fun _ => []) (fun _ => none) (fun _ => none))
        "INC2" ⟨none, none, none, none, some "INC1"⟩).1 ≠
      ⟨none, none, none, none, some "INC1"⟩ := by
  decide

/-- C5 (amended): on a not-found lookup the handler leaves the incident,
notes, summary and resolution-steps components unchanged, but sets the
stored identifier to the entered value; the visible "not found" message is
the only message emitted. -/
theorem summarize_notfound_effect (b : Backend) (entered : String)
    (s : SessionState)
    (hne : entered ≠ "") (hnf : b.fetchIncident entered = none) :
    (summarizeButtonAction b entered s).1 =
      { s with incident_number := some entered } ∧
    (summarizeButtonAction b entered s).2 =
      [UIEvent.incidentFetch entered, UIEvent.errorMsg "Incident not found."] := by
  simp [summarizeButtonAction, hne, hnf]

/-- Witness for C5's amended theorem at a concrete not-found lookup. -/
theorem summarize_notfound_effect_witness :
    ("INC2" : String) ≠ "" ∧
    (Backend.mk (fun _ => none) (fun _ => []) (fun _ => none)
        (fun _ => none)).fetchIncident "INC2" = none ∧
    ((summarizeButtonAction
        (Backend.mk (fun _ => none) (fun _ => []) (fun _ => none) (fun _ => none))
        "INC2" ⟨none, none, none, none, some "INC1"⟩).1 =
      { (⟨none, none, none, none, some "INC1"⟩ : SessionState) with
          incident_number := some "INC2" } ∧
     (summarizeButtonAction
        (Backend.mk (fun _ => none) (fun _ => []) (fun _ => none) (fun _ => none))
        "INC2" ⟨none, none, none, none, some "INC1"⟩).2 =
      [UIEvent.incidentFetch "INC2", UIEvent.errorMsg "Incident not found."]) :=
  ⟨by decide, rfl,
   summarize_notfound_effect _ "INC2" ⟨none, none, none, none, some "INC1"⟩
     (by decide) rfl⟩

/-- C6: from any prior session state, the Clear handler sets all five held
components — identifier, incident, notes, summary and resolution steps —
to `none`. -/
theorem clear_resets_all (s : SessionState) :
    clearButtonAction s =
      { incident_data := none, incident_notes := none, summarized_notes := none,
        resolution_steps := none, incident_number := none } := rfl

/-- C7 fails as stated: a non-image attachment record with no `sys_id` key
is not passed to summarization (no summary entry, no language-model call),
although its name does not end with an image extension. -/
theorem attachment_without_sysid_not_summarized :
    isImageName "b.txt" = false ∧
    (summarize_attachments (fun _ => some [65]) (fun _ => "x") (fun _ => some "s")
        [⟨"b.txt", none⟩]).1 = [] ∧
    (summarize_attachments (fun _ => some [65]) (fun _ => "x") (fun _ => some "s")
        [⟨"b.txt", none⟩]).2.filter isSummarizationCall = [] := by
  decide

lemma summarize_text_events_one (llm : String → Option String)
    (text task : String) :
    ((summarize_text llm text task).2.filter isSummarizationCall).length = 1 := by
  simp only [summarize_text]
  split <;> simp [isSummarizationCall, List.filter]

/-- C7 (amended): `summarize_attachments` passes to summarization exactly
those attachments whose (lower-cased) file name does not end with one of
the six image extensions, provided each such attachment carries a `sys_id`
and its content fetch returns non-empty bytes; the summary entries list
those file names in input order, with one language-model call each. -/
theorem non_image_attachments_summarized (fetchData : String → Option (List Nat))
    (decode : List Nat → String) (llm : String → Option String)
    (atts : List AttachmentMeta)
    (hok : ∀ a ∈ atts, a.sys_id.isSome = true ∧
        (fetchData (a.sys_id.getD "")).isSome = true ∧
        (fetchData (a.sys_id.getD "")).getD [] ≠ []) :
    (summarize_attachments fetchData decode llm atts).1.map
        (fun e => e.fileName) =
      (atts.filter (fun a => !isImageName a.file_name)).map
        (fun a => a.file_name) ∧
    ((summarize_attachments fetchData decode llm atts).2.filter
        isSummarizationCall).length =
      (atts.filter (fun a => !isImageName a.file_name)).length := by
  induction atts with
  | nil => exact ⟨rfl, rfl⟩
  | cons a rest ih =>
      obtain ⟨h1, h2, h3⟩ := hok a (by simp)
      have hrest := ih (fun m hm => hok m (by simp [hm]))
      obtain ⟨sid, hsid⟩ := Option.isSome_iff_exists.mp h1
      rw [hsid] at h2 h3
      simp only [Option.getD_some] at h2 h3
      obtain ⟨bytes, hbytes⟩ := Option.isSome_iff_exists.mp h2
      rw [hbytes] at h3
      have hbne : bytes ≠ [] := by simpa using h3
      cases himg : isImageName a.file_name with
      | true =>
          simp only [summarize_attachments, himg, if_true, List.filter_cons]
          simpa [himg] using hrest
      | false =>
          have hcons : summarize_attachments fetchData decode llm (a :: rest) =
              ({ fileName := a.file_name,
                 summary := (summarize_text llm (decode bytes) "Summarize").1 } ::
                 (summarize_attachments fetchData decode llm rest).1,
               (summarize_text llm (decode bytes) "Summarize").2 ++
                 (summarize_attachments fetchData decode llm rest).2) := by
            simp [summarize_attachments, himg, hsid, hbytes, hbne]
          rw [hcons]
          refine ⟨?_, ?_⟩
          · simpa [List.filter_cons, himg] using hrest.1
          · have h1len := summarize_text_events_one llm (decode bytes) "Summarize"
            simp [List.filter_append, List.filter_cons, himg, h1len, hrest.2]
            omega

/-- Witness for C7's amended theorem at the spec's four-file list: only
`b.txt` and `d.log` are summarized. -/
theorem non_image_attachments_summarized_witness :
    (∀ a ∈ ([⟨"a.png", some "s1"⟩, ⟨"b.txt", some "s2"⟩,
             ⟨"c.JPG", some "s3"⟩, ⟨"d.log", some "s4"⟩] : List AttachmentMeta),
        a.sys_id.isSome = true ∧
        ((fun _ => some [65]) (a.sys_id.getD "") : Option (List Nat)).isSome = true ∧
        ((fun _ => some [65]) (a.sys_id.getD "") : Option (List Nat)).getD [] ≠ []) ∧
    ((summarize_attachments (fun _ => some [65]) (fun _ => "x") (fun _ => some "s")
        [⟨"a.png", some "s1"⟩, ⟨"b.txt", some "s2"⟩,
         ⟨"c.JPG", some "s3"⟩, ⟨"d.log", some "s4"⟩]).1.map (fun e => e.fileName) =
      (([⟨"a.png", some "s1"⟩, ⟨"b.txt", some "s2"⟩,
         ⟨"c.JPG", some "s3"⟩, ⟨"d.log", some "s4"⟩] : List AttachmentMeta).filter
          (fun a => !isImageName a.file_name)).map (fun a => a.file_name)) ∧
    (([⟨"a.png", some "s1"⟩, ⟨"b.txt", some "s2"⟩,
       ⟨"c.JPG", some "s3"⟩, ⟨"d.log", some "s4"⟩] : List AttachmentMeta).filter
        (fun a => !isImageName a.file_name)).map (fun a => a.file_name) =
      ["b.txt", "d.log"] :=
  ⟨by decide,
   (non_image_attachments_summarized (fun _ => some [65]) (fun _ => "x")
      (fun _ => some "s")
      [⟨"a.png", some "s1"⟩, ⟨"b.txt", some "s2"⟩,
       ⟨"c.JPG", some "s3"⟩, ⟨"d.log", some "s4"⟩] (by decide)).1,
   by decide⟩

/-- C8: the incident lookup returns the parsed first record exactly when
the HTTP status is 200 and the `result` list is non-empty, returns `none`
when the `result` is empty or absent, and on any non-200 status (all 4xx
and 5xx in particular) returns `none` without raising (no `Except.error`). -/
theorem fetch_incident_contract (resp : HttpResponse) (d : Incident)
    (l : List Incident) :
    (resp.status_code = 200 → resp.jsonBody = some (some (d :: l)) →
        fetch_incident_data resp = .ok (some d)) ∧
    (resp.status_code = 200 → resp.jsonBody = some (some []) →
        fetch_incident_data resp = .ok none) ∧
    (resp.status_code = 200 → resp.jsonBody = some none →
        fetch_incident_data resp = .ok none) ∧
    (resp.status_code ≠ 200 → fetch_incident_data resp = .ok none) := by
  refine ⟨?_, ?_, ?_, ?_⟩ <;> intro h1 <;>
    simp_all [fetch_incident_data]

/-- Witness for C8 on a concrete 404 response: lookup yields `.ok none`,
not an exception. -/
theorem fetch_incident_contract_witness :
    (HttpResponse.mk 404 none).status_code ≠ 200 ∧
    fetch_incident_data (HttpResponse.mk 404 none) = .ok none :=
  ⟨by decide,
   (fetch_incident_contract (HttpResponse.mk 404 none)
      ⟨"n", "s", "d", "p", "1", "o", "r"⟩ []).2.2.2 (by decide)⟩

/-- C10: a non-image attachment with no `sys_id`, or whose byte fetch fails,
or whose fetched byte string is empty, contributes no summary entry and no
events; the empty-fetch and failed-fetch cases yield literally the same
result, so they are indistinguishable in the output. -/
theorem empty_or_failed_attachment_no_entry (fetchData : String → Option (List Nat))
    (decode : List Nat → String) (llm : String → Option String)
    (a : AttachmentMeta) (rest : List AttachmentMeta)
    (hni : isImageName a.file_name = false)
    (hskip : a.sys_id = none ∨
      ∃ sid, a.sys_id = some sid ∧
        (fetchData sid = none ∨ fetchData sid = some [])) :
    summarize_attachments fetchData decode llm (a :: rest) =
      summarize_attachments fetchData decode llm rest := by
  rcases hskip with hnone | ⟨sid, hsid, hfd⟩
  · simp [summarize_attachments, hni, hnone]
  · rcases hfd with hf | hf <;> simp [summarize_attachments, hni, hsid, hf]

/-- Witness for C10: a non-image attachment whose fetch returns empty bytes
produces no entry, and the result coincides with that of a failing fetch. -/
theorem empty_or_failed_attachment_no_entry_witness :
    isImageName "b.txt" = false ∧
    ((⟨"b.txt", some "s1"⟩ : AttachmentMeta).sys_id = some "s1" ∧
     ((fun _ => some ([] : List Nat)) "s1" : Option (List Nat)) = some []) ∧
    summarize_attachments (fun _ => some []) (fun _ => "x") (fun _ => some "s")
        [⟨"b.txt", some "s1"⟩] =
      summarize_attachments (fun _ => some []) (fun _ => "x") (fun _ => some "s") [] :=
  ⟨by decide, ⟨rfl, rfl⟩,
   empty_or_failed_attachment_no_entry (fun _ => some []) (fun _ => "x")
     (fun _ => some "s") ⟨"b.txt", some "s1"⟩ [] (by decide)
     (Or.inr ⟨"s1", rfl, Or.inr rfl⟩)⟩

/-! ### Idempotence of redaction: match-derivation theory -/

lemma wordBoundary_wclass (p n : Option Char) :
    wordBoundary p n = (wclass p != wclass n) := by
  cases p <;> cases n <;> rfl

lemma runLen_le_length (p : Char → Bool) (s : List Char) : runLen p s ≤ s.length := by
  induction s with
  | nil => simp [runLen]
  | cons c s ih =>
      by_cases h : p c
      · simp [runLen, h]; omega
      · simp [runLen, h]

lemma runLen_take_all (p : Char → Bool) :
    ∀ (s : List Char) (n : Nat), n ≤ runLen p s → ∀ c ∈ s.take n, p c = true := by
  intro s
  induction s with
  | nil => intro n _ c hc; simp at hc
  | cons d s ih =>
      intro n hn c hc
      by_cases hd : p d
      · cases n with
        | zero => simp at hc
        | succ n =>
            simp only [List.take_succ_cons, List.mem_cons] at hc
            rcases hc with rfl | hc
            · exact hd
            · exact ih n (by simpa [runLen, hd] using hn) c hc
      · simp [runLen, hd] at hn
        subst hn
        simp at hc

lemma runLen_append_ge (p : Char → Bool) (u v : List Char)
    (hu : ∀ c ∈ u, p c = true) : u.length ≤ runLen p (u ++ v) := by
  induction u with
  | nil => simp
  | cons c u ih =>
      have hc : p c = true := hu c (by simp)
      simp only [List.cons_append, runLen, hc, if_true, List.length_cons]
      have hrec := ih (fun d hd => hu d (by simp [hd]))
      simp only [List.append_eq] at hrec ⊢
      omega

lemma firstSome_map_ne_none {α β : Type} (f : α → Option β) (l : List α) (a : α)
    (ha : a ∈ l) (hfa : f a ≠ none) : ∃ b, firstSome (l.map f) = some b := by
  induction l with
  | nil => simp at ha
  | cons x xs ih =>
      rw [List.map_cons]
      cases hx : f x with
      | some y => exact ⟨y, rfl⟩
      | none =>
          rcases List.mem_cons.mp ha with rfl | ha'
          · exact absurd hx hfa
          · simpa [firstSome] using ih ha'

lemma descRange_mem_of {m lo n : Nat} (h1 : lo ≤ n) (h2 : n ≤ m) :
    n ∈ descRange m lo := by
  simp only [descRange, List.mem_map, List.mem_range]
  exact ⟨m - n, by omega, by omega⟩

lemma matchPat_sound :
    ∀ (items : List RItem) (prev : Option Char) (s : List Char) (m : Nat),
      matchPat items prev s = some m → Parses items prev s m := by
  intro items
  induction items with
  | nil =>
      intro prev s m h
      simp only [matchPat, Option.some.injEq] at h
      subst h
      exact Parses.nil prev s
  | cons it rest ih =>
      cases it with
      | wordB =>
          intro prev s m h
          simp only [matchPat] at h
          by_cases hb : wordBoundary prev s.head? = true
          · rw [if_pos hb] at h
            exact Parses.wordB hb (ih prev s m h)
          · rw [if_neg hb] at h
            exact absurd h (by simp)
      | cls p lo hi =>
          intro prev s m h
          simp only [matchPat] at h
          obtain ⟨n, hn, hfn⟩ := firstSome_map_some _ _ _ h
          have hmem := descRange_mem hn
          cases hk : matchPat rest (prevAfter prev (s.take n)) (s.drop n) with
          | none => rw [hk] at hfn; simp at hfn
          | some k =>
              rw [hk] at hfn
              have hm : n + k = m := by simpa using hfn
              have hpk := ih _ _ _ hk
              have hr : n ≤ runLen p s := by
                cases hi with
                | none => simpa using hmem.2
                | some b => have := hmem.2; simp at this; omega
              have hhib : ∀ b ∈ hi, n ≤ b := by
                intro b hb
                cases hi with
                | none => simp at hb
                | some b' =>
                    simp at hb
                    subst hb
                    have := hmem.2; simp at this; omega
              have hlen : (s.take n).length = n := by
                rw [List.length_take]
                exact Nat.min_eq_left (le_trans hr (runLen_le_length p s))
              have hres : Parses (RItem.cls p lo hi :: rest) prev
                  (s.take n ++ s.drop n) ((s.take n).length + k) :=
                Parses.cls (runLen_take_all p s n hr)
                  (by omega) (fun b hb => by rw [hlen]; exact hhib b hb) hpk
              rw [List.take_append_drop, hlen, hm] at hres
              exact hres

lemma matchPat_complete :
    ∀ {items : List RItem} {prev : Option Char} {s : List Char} {m : Nat},
      Parses items prev s m → ∃ m', matchPat items prev s = some m' := by
  intro items prev s m h
  induction h with
  | nil prev s => exact ⟨0, rfl⟩
  | wordB hb _ ih =>
      obtain ⟨m', hm'⟩ := ih
      exact ⟨m', by simp only [matchPat, hb, if_true]; exact hm'⟩
  | @cls p lo hi rest prev u v k hu hlo hhi _ ih =>
      obtain ⟨k', hk'⟩ := ih
      have hr := runLen_append_ge p u v hu
      cases hi with
      | none =>
          have hmem : u.length ∈ descRange (runLen p (u ++ v)) lo :=
            descRange_mem_of hlo hr
          have hfn : ((fun n => (matchPat rest (prevAfter prev ((u ++ v).take n))
              ((u ++ v).drop n)).map (fun j => n + j)) u.length) ≠ none := by
            simp only [List.take_left, List.drop_left, hk']
            simp
          obtain ⟨b, hb⟩ := firstSome_map_ne_none
            (fun n => (matchPat rest (prevAfter prev ((u ++ v).take n))
              ((u ++ v).drop n)).map (fun j => n + j)) _ _ hmem hfn
          exact ⟨b, by simp only [matchPat]; exact hb⟩
      | some bound =>
          have hb2 := hhi bound (by simp)
          have hmem : u.length ∈ descRange (min (runLen p (u ++ v)) bound) lo :=
            descRange_mem_of hlo (by omega)
          have hfn : ((fun n => (matchPat rest (prevAfter prev ((u ++ v).take n))
              ((u ++ v).drop n)).map (fun j => n + j)) u.length) ≠ none := by
            simp only [List.take_left, List.drop_left, hk']
            simp
          obtain ⟨b, hb⟩ := firstSome_map_ne_none
            (fun n => (matchPat rest (prevAfter prev ((u ++ v).take n))
              ((u ++ v).drop n)).map (fun j => n + j)) _ _ hmem hfn
          exact ⟨b, by simp only [matchPat]; exact hb⟩

lemma prevAfter_cons (pv : Option Char) (c : Char) (u : List Char) :
    prevAfter pv (c :: u) = prevAfter (some c) u := by
  cases u with
  | nil => rfl
  | cons d u' =>
      rcases h : (d :: u').getLast? with _ | x
      · exact absurd (List.getLast?_eq_none_iff.mp h) (by simp)
      · simp [prevAfter, List.getLast?_cons_cons, h]

lemma prevAfter_append (pv : Option Char) (u w : List Char) :
    prevAfter pv (u ++ w) = prevAfter (prevAfter pv u) w := by
  induction u generalizing pv with
  | nil => rfl
  | cons c u' ih => rw [List.cons_append, prevAfter_cons, ih, prevAfter_cons]

lemma prevAfter_ne_nil (pv1 pv2 : Option Char) (u : List Char) (h : u ≠ []) :
    prevAfter pv1 u = prevAfter pv2 u := by
  cases u with
  | nil => exact absurd rfl h
  | cons c u' => rw [prevAfter_cons, prevAfter_cons]

lemma parses_le {items : List RItem} {pv : Option Char} {s : List Char} {m : Nat}
    (h : Parses items pv s m) : m ≤ s.length := by
  induction h with
  | nil => omega
  | wordB _ _ ih => exact ih
  | cls _ _ _ _ ih => simp; omega

lemma take_eq_cons_of {s2 : List Char} {c : Char} {w : List Char} {k : Nat}
    (h : s2.take (k + 1) = c :: w) : ∃ s2', s2 = c :: s2' ∧ s2'.take k = w := by
  cases s2 with
  | nil => simp at h
  | cons c2 s2' =>
      rw [List.take_succ_cons] at h
      obtain ⟨rfl, hw⟩ := List.cons.injEq .. ▸ h
      exact ⟨s2', rfl, hw⟩

lemma parses_transport {items : List RItem} {pv : Option Char} {s : List Char}
    {m : Nat} (h : Parses items pv s m) :
    ∀ s2, s2.take m = s.take m →
      wclass (s2.drop m).head? = wclass (s.drop m).head? →
      Parses items pv s2 m := by
  induction h with
  | nil prev s => intro s2 _ _; exact Parses.nil prev s2
  | @wordB rest prev s m hb hsub ih =>
      intro s2 ht hw
      have hd : wclass s2.head? = wclass s.head? := by
        cases m with
        | zero => simpa using hw
        | succ k =>
            cases s with
            | nil =>
                have : s2.take (k + 1) = [] := by simpa using ht
                have : s2 = [] := by
                  cases s2 with
                  | nil => rfl
                  | cons a b => simp [List.take_succ_cons] at this
                simp [this]
            | cons c s' =>
                rw [List.take_succ_cons] at ht
                obtain ⟨s2', rfl, _⟩ := take_eq_cons_of ht
                rfl
      refine Parses.wordB ?_ (ih s2 ht hw)
      rw [wordBoundary_wclass] at hb ⊢
      rw [hd]
      exact hb
  | @cls p lo hi rest prev u v k hu hlo hhi hsub ih =>
      intro s2 ht hw
      have hle : u.length ≤ u.length + k := Nat.le_add_right _ _
      have hu2 : s2.take u.length = u := by
        have h1 : (s2.take (u.length + k)).take u.length = s2.take u.length := by
          rw [List.take_take, Nat.min_eq_left hle]
        have h2 : (((u ++ v).take (u.length + k))).take u.length = u := by
          rw [List.take_take, Nat.min_eq_left hle, List.take_left]
        rw [← h1, ht, h2]
      have hv2 : (s2.drop u.length).take k = v.take k := by
        have h1 : (s2.take (u.length + k)).drop u.length = (s2.drop u.length).take k := by
          rw [List.drop_take, Nat.add_sub_cancel_left]
        have h2 : ((u ++ v).take (u.length + k)).drop u.length = v.take k := by
          rw [List.drop_take, Nat.add_sub_cancel_left, List.drop_left]
        rw [← h1, ht, h2]
      have hw2 : wclass ((s2.drop u.length).drop k).head? =
          wclass (v.drop k).head? := by
        rw [List.drop_drop]
        have h3 : v.drop k = (u ++ v).drop (u.length + k) := (List.drop_append k).symm
        rw [h3]
        exact hw
      have hrec := ih (s2.drop u.length) hv2 hw2
      have hfin : Parses (RItem.cls p lo hi :: rest) prev
          (u ++ s2.drop u.length) (u.length + k) :=
        Parses.cls hu hlo hhi hrec
      have hs2 : u ++ s2.drop u.length = s2 := by
        conv_rhs => rw [← List.take_append_drop u.length s2]
        rw [hu2]
      rwa [hs2] at hfin

lemma parses_prev_transport {items : List RItem} {pv1 : Option Char}
    {s : List Char} {m : Nat} (h : Parses items pv1 s m) :
    ∀ pv2, wclass pv1 = wclass pv2 → Parses items pv2 s m := by
  induction h with
  | nil _ s => intro pv2 _; exact Parses.nil pv2 s
  | wordB hb _ ih =>
      intro pv2 hw
      refine Parses.wordB ?_ (ih pv2 hw)
      rw [wordBoundary_wclass] at hb ⊢
      rw [← hw]
      exact hb
  | @cls p lo hi rest prev u v k hu hlo hhi hsub ih =>
      intro pv2 hw
      refine Parses.cls hu hlo hhi (ih (prevAfter pv2 u) ?_)
      cases u with
      | nil => exact hw
      | cons c u' => rw [prevAfter_cons, prevAfter_cons]

lemma parses_nil_inv {pv : Option Char} {s : List Char} {m : Nat}
    (h : Parses [] pv s m) : m = 0 := by
  cases h
  rfl

lemma parses_wordB_inv {rest : List RItem} {pv : Option Char} {s : List Char}
    {m : Nat} (h : Parses (RItem.wordB :: rest) pv s m) :
    wordBoundary pv s.head? = true ∧ Parses rest pv s m := by
  cases h with
  | wordB hb hs => exact ⟨hb, hs⟩

lemma parses_cls_inv {p : Char → Bool} {lo : Nat} {hi : Option Nat}
    {rest : List RItem} {pv : Option Char} {s : List Char} {m : Nat}
    (h : Parses (RItem.cls p lo hi :: rest) pv s m) :
    ∃ u v k, s = u ++ v ∧ m = u.length + k ∧ (∀ c ∈ u, p c = true) ∧
      lo ≤ u.length ∧ (∀ b ∈ hi, u.length ≤ b) ∧
      Parses rest (prevAfter pv u) v k := by
  cases h with
  | cls hu hlo hhi hs => exact ⟨_, _, _, rfl, rfl, hu, hlo, hhi, hs⟩

lemma parses_consumed_sat {items : List RItem} {pv : Option Char}
    {s : List Char} {m : Nat} (h : Parses items pv s m) :
    ∀ c ∈ s.take m, ∃ it ∈ items, ∃ p lo hi, it = RItem.cls p lo hi ∧ p c = true := by
  induction h with
  | nil => intro c hc; simp at hc
  | wordB _ _ ih =>
      intro c hc
      obtain ⟨it, hit, hr⟩ := ih c hc
      exact ⟨it, List.mem_cons_of_mem _ hit, hr⟩
  | @cls p lo hi rest prev u v k hu _ _ _ ih =>
      intro c hc
      rw [List.take_append] at hc
      rcases List.mem_append.mp hc with hcu | hcv
      · exact ⟨_, List.mem_cons_self _ _, p, lo, hi, rfl, hu c hcu⟩
      · obtain ⟨it, hit, hr⟩ := ih c hcv
        exact ⟨it, List.mem_cons_of_mem _ hit, hr⟩

lemma parses_mandatory {items : List RItem} {pv : Option Char} {s : List Char}
    {m : Nat} (h : Parses items pv s m) :
    ∀ {p : Char → Bool} {lo : Nat} {hi : Option Nat},
      RItem.cls p lo hi ∈ items → 1 ≤ lo → ∃ c ∈ s.take m, p c = true := by
  induction h with
  | nil => intro p lo hi hmem _; simp at hmem
  | wordB _ _ ih =>
      intro p lo hi hmem hlo1
      rcases List.mem_cons.mp hmem with h1 | h2
      · exact absurd h1 (by simp)
      · exact ih h2 hlo1
  | @cls p' lo' hi' rest prev u v k hu hlo _ _ ih =>
      intro p lo hi hmem hlo1
      rcases List.mem_cons.mp hmem with h1 | h2
      · obtain ⟨hp, hl, hh⟩ := RItem.cls.injEq .. ▸ h1
        subst hp hl hh
        cases u with
        | nil => simp at hlo; omega
        | cons d u' =>
            refine ⟨d, ?_, hu d (by simp)⟩
            rw [List.take_append]
            simp
      · obtain ⟨c, hc, hpc⟩ := ih h2 hlo1
        refine ⟨c, ?_, hpc⟩
        rw [List.take_append]
        exact List.mem_append_right _ hc

lemma parses_first_mandatory {p : Char → Bool} {lo : Nat} {hi : Option Nat}
    {rest : List RItem} {pv : Option Char} {s : List Char} {m : Nat}
    (h : Parses (RItem.wordB :: RItem.cls p lo hi :: rest) pv s m)
    (hlo1 : 1 ≤ lo) : ∃ d s', s = d :: s' ∧ p d = true := by
  obtain ⟨_, h2⟩ := parses_wordB_inv h
  obtain ⟨u, v, k, hs, _, hu, hlo', _, _⟩ := parses_cls_inv h2
  cases u with
  | nil => simp at hlo'; omega
  | cons d u' => exact ⟨d, u' ++ v, by rw [hs]; rfl, hu d (by simp)⟩

lemma parses_trailing_wordB :
    ∀ (L : List RItem) {pv : Option Char} {s : List Char} {m : Nat},
      Parses (L ++ [RItem.wordB]) pv s m →
      wordBoundary (prevAfter pv (s.take m)) (s.drop m).head? = true := by
  intro L
  induction L with
  | nil =>
      intro pv s m h
      rw [List.nil_append] at h
      obtain ⟨hb, h2⟩ := parses_wordB_inv h
      have hm := parses_nil_inv h2
      subst hm
      simpa [prevAfter] using hb
  | cons it L ih =>
      intro pv s m h
      cases it with
      | wordB =>
          obtain ⟨_, h2⟩ := parses_wordB_inv h
          exact ih h2
      | cls p lo hi =>
          obtain ⟨u, v, k, hs, hm, _, _, _, hsub⟩ := parses_cls_inv h
          subst hs hm
          have hres := ih hsub
          rw [List.take_append, List.drop_append, prevAfter_append]
          exact hres

lemma parses_emailPattern_pos {pv : Option Char} {s : List Char} {m : Nat}
    (h : Parses emailPattern pv s m) : 1 ≤ m := by
  simp only [emailPattern] at h
  obtain ⟨_, h2⟩ := parses_wordB_inv h
  obtain ⟨u, v, k, _, hm, _, hlo, _, _⟩ := parses_cls_inv h2
  omega

lemma parses_phonePattern_pos {pv : Option Char} {s : List Char} {m : Nat}
    (h : Parses phonePattern pv s m) : 1 ≤ m := by
  simp only [phonePattern] at h
  obtain ⟨_, h2⟩ := parses_wordB_inv h
  obtain ⟨u, v, k, _, hm, _, hlo, _, _⟩ := parses_cls_inv h2
  omega

lemma parses_ssnPattern_pos {pv : Option Char} {s : List Char} {m : Nat}
    (h : Parses ssnPattern pv s m) : 1 ≤ m := by
  simp only [ssnPattern] at h
  obtain ⟨_, h2⟩ := parses_wordB_inv h
  obtain ⟨u, v, k, _, hm, _, hlo, _, _⟩ := parses_cls_inv h2
  omega

lemma SubRel_head {pat : List RItem} {prev : Option Char} {s out : List Char}
    (h : SubRel pat redactedToken prev s out) :
    out = [] ∨ out.head? = s.head? ∨ out.head? = some '[' := by
  cases h with
  | nil => exact Or.inl rfl
  | keep _ _ => exact Or.inr (Or.inl rfl)
  | redactHere _ _ => exact Or.inr (Or.inr rfl)

lemma SubRel_decomp {pat : List RItem} {repl : List Char} {prev : Option Char}
    {s out : List Char} (h : SubRel pat repl prev s out) :
    out = s ∨
    ∃ seg n s2 out2, s = seg ++ s2 ∧ out = seg ++ (repl ++ out2) ∧
      matchPat pat (prevAfter prev seg) s2 = some (n + 1) ∧
      SubRel pat repl (prevAfter (prevAfter prev seg) (s2.take (n + 1)))
        (s2.drop (n + 1)) out2 := by
  induction h with
  | nil => exact Or.inl rfl
  | @keep prev c s' out' hnm htail ih =>
      rcases ih with heq | ⟨seg, n, s2, out2, hs, ho, hm2, hsub⟩
      · exact Or.inl (by rw [heq])
      · refine Or.inr ⟨c :: seg, n, s2, out2, by rw [hs]; rfl, by rw [ho]; rfl, ?_, ?_⟩
        · rw [prevAfter_cons]; exact hm2
        · rw [prevAfter_cons]; exact hsub
  | @redactHere prev c s' out' n hm htail =>
      exact Or.inr ⟨[], n, c :: s', out', rfl, rfl, hm, htail⟩

lemma NoP_cons {pat : List RItem} {prev : Option Char} {c : Char} {s : List Char}
    (h : NoP pat prev (c :: s)) : NoP pat (some c) s := by
  intro u v m huv hp
  refine h (c :: u) v m (by rw [huv]; rfl) ?_
  rwa [prevAfter_cons]

lemma NoP_drop {pat : List RItem} {prev : Option Char} {s : List Char}
    (h : NoP pat prev s) (k : Nat) :
    NoP pat (prevAfter prev (s.take k)) (s.drop k) := by
  intro u v m huv hp
  refine h (s.take k ++ u) v m ?_ ?_
  · rw [List.append_assoc, ← huv, List.take_append_drop]
  · rwa [prevAfter_append]

lemma email_consumed {pv : Option Char} {s : List Char} {m : Nat}
    (h : Parses emailPattern pv s m) :
    ∀ c ∈ s.take m, emailLocalChar c = true ∨ c = '@' ∨
      emailDomainChar c = true ∨ c = '.' ∨ emailTldChar c = true := by
  intro c hc
  obtain ⟨it, hit, p, lo, hi, heq, hpc⟩ := parses_consumed_sat h c hc
  rw [heq] at hit
  simp only [emailPattern, litItem, List.mem_cons, List.not_mem_nil, or_false] at hit
  rcases hit with h1 | h1 | h1 | h1 | h1 | h1 | h1
  · exact absurd h1 (by simp)
  · injection h1 with hp _ _
    subst hp
    exact Or.inl hpc
  · injection h1 with hp _ _
    subst hp
    exact Or.inr (Or.inl (of_decide_eq_true hpc))
  · injection h1 with hp _ _
    subst hp
    exact Or.inr (Or.inr (Or.inl hpc))
  · injection h1 with hp _ _
    subst hp
    exact Or.inr (Or.inr (Or.inr (Or.inl (of_decide_eq_true hpc))))
  · injection h1 with hp _ _
    subst hp
    exact Or.inr (Or.inr (Or.inr (Or.inr hpc)))
  · exact absurd h1 (by simp)

lemma email_not_bracket {pv : Option Char} {s : List Char} {m : Nat}
    (h : Parses emailPattern pv s m) :
    '[' ∉ s.take m ∧ ']' ∉ s.take m := by
  constructor <;> intro hmem <;>
    rcases email_consumed h _ hmem with h1 | h1 | h1 | h1 | h1 <;>
      exact absurd h1 (by decide)

lemma email_at_sign {pv : Option Char} {s : List Char} {m : Nat}
    (h : Parses emailPattern pv s m) : '@' ∈ s.take m := by
  have hm : RItem.cls (fun d => d = '@') 1 (some 1) ∈ emailPattern := by
    simp [emailPattern, litItem]
  obtain ⟨c, hc, hpc⟩ := parses_mandatory h hm (by omega)
  have : c = '@' := of_decide_eq_true hpc
  subst this
  exact hc

lemma email_tok (i : Nat) (hi : i ≤ 9) (out2 : List Char) (pv : Option Char)
    (k : Nat) : ¬ Parses emailPattern pv (redactedToken.drop i ++ out2) k := by
  intro hp
  have hat := email_at_sign hp
  have hnb := (email_not_bracket hp).2
  rcases le_or_lt k (redactedToken.drop i).length with hk | hk
  · rw [List.take_append_of_le_length hk] at hat
    have h1 : '@' ∈ redactedToken.drop i := List.take_subset _ _ hat
    have h2 : '@' ∈ redactedToken := List.drop_subset _ _ h1
    exact absurd h2 (by decide)
  · have hzin : ']' ∈ redactedToken.drop i := by interval_cases i <;> decide
    have hz2 : ']' ∈ (redactedToken.drop i ++ out2).take k := by
      have hsplit : k = (redactedToken.drop i).length +
          (k - (redactedToken.drop i).length) := by omega
      rw [hsplit, List.take_append]
      exact List.mem_append_left _ hzin
    exact hnb hz2

lemma token_drop_ne_nil (i : Nat) (hi : i ≤ 9) : redactedToken.drop i ≠ [] := by
  intro hnil
  have hlen : (redactedToken.drop i).length = 10 - i := by
    rw [List.length_drop]
    rfl
  rw [hnil] at hlen
  simp at hlen
  omega

lemma digit_first_tok (p : Char → Bool) (lo : Nat) (hi : Option Nat)
    (rest : List RItem) (hdig : ∀ c ∈ redactedToken, p c = false)
    (hlo : 1 ≤ lo) (i : Nat) (hi9 : i ≤ 9) (out2 : List Char)
    (pv : Option Char) (k : Nat) :
    ¬ Parses (RItem.wordB :: RItem.cls p lo hi :: rest) pv
        (redactedToken.drop i ++ out2) k := by
  intro hp
  obtain ⟨d, s', hseq, hd⟩ := parses_first_mandatory hp hlo
  cases htd : redactedToken.drop i with
  | nil => exact token_drop_ne_nil i hi9 htd
  | cons d0 w0 =>
      rw [htd, List.cons_append] at hseq
      injection hseq with h1 _
      subst h1
      have hd0 : d0 ∈ redactedToken :=
        List.drop_subset i _ (htd ▸ List.mem_cons_self d0 w0)
      rw [hdig d0 hd0] at hd
      exact Bool.false_ne_true hd

lemma phone_tok (i : Nat) (hi : i ≤ 9) (out2 : List Char) (pv : Option Char)
    (k : Nat) : ¬ Parses phonePattern pv (redactedToken.drop i ++ out2) k := by
  have h := digit_first_tok Char.isDigit 10 (some 10)
    [RItem.wordB] (by decide) (by omega) i hi out2 pv k
  intro hp
  exact h (by simpa [phonePattern] using hp)

lemma ssn_tok (i : Nat) (hi : i ≤ 9) (out2 : List Char) (pv : Option Char)
    (k : Nat) : ¬ Parses ssnPattern pv (redactedToken.drop i ++ out2) k := by
  have h := digit_first_tok Char.isDigit 3 (some 3)
    [litItem '-', RItem.cls Char.isDigit 2 (some 2), litItem '-',
     RItem.cls Char.isDigit 4 (some 4), RItem.wordB]
    (by decide) (by omega) i hi out2 pv k
  intro hp
  exact h (by simpa [ssnPattern] using hp)

lemma email_lead {pv : Option Char} {w : List Char} {k : Nat}
    (h : Parses emailPattern pv w k) : wordBoundary pv w.head? = true := by
  simp only [emailPattern] at h
  exact (parses_wordB_inv h).1

lemma phone_lead {pv : Option Char} {w : List Char} {k : Nat}
    (h : Parses phonePattern pv w k) : wordBoundary pv w.head? = true := by
  simp only [phonePattern] at h
  exact (parses_wordB_inv h).1

lemma ssn_lead {pv : Option Char} {w : List Char} {k : Nat}
    (h : Parses ssnPattern pv w k) : wordBoundary pv w.head? = true := by
  simp only [ssnPattern] at h
  exact (parses_wordB_inv h).1

lemma phone_consumed_digit {pv : Option Char} {s : List Char} {m : Nat}
    (h : Parses phonePattern pv s m) :
    ∀ c ∈ s.take m, Char.isDigit c = true := by
  intro c hc
  obtain ⟨it, hit, p, lo, hi, heq, hpc⟩ := parses_consumed_sat h c hc
  rw [heq] at hit
  simp only [phonePattern, List.mem_cons, List.not_mem_nil, or_false] at hit
  rcases hit with h1 | h1 | h1
  · exact absurd h1 (by simp)
  · injection h1 with hp _ _
    subst hp
    exact hpc
  · exact absurd h1 (by simp)

lemma ssn_consumed {pv : Option Char} {s : List Char} {m : Nat}
    (h : Parses ssnPattern pv s m) :
    ∀ c ∈ s.take m, Char.isDigit c = true ∨ c = '-' := by
  intro c hc
  obtain ⟨it, hit, p, lo, hi, heq, hpc⟩ := parses_consumed_sat h c hc
  rw [heq] at hit
  simp only [ssnPattern, litItem, List.mem_cons, List.not_mem_nil, or_false] at hit
  rcases hit with h1 | h1 | h1 | h1 | h1 | h1 | h1
  · exact absurd h1 (by simp)
  · injection h1 with hp _ _
    subst hp
    exact Or.inl hpc
  · injection h1 with hp _ _
    subst hp
    exact Or.inr (of_decide_eq_true hpc)
  · injection h1 with hp _ _
    subst hp
    exact Or.inl hpc
  · injection h1 with hp _ _
    subst hp
    exact Or.inr (of_decide_eq_true hpc)
  · injection h1 with hp _ _
    subst hp
    exact Or.inl hpc
  · exact absurd h1 (by simp)

lemma phone_noLB {pv : Option Char} {s : List Char} {m : Nat}
    (h : Parses phonePattern pv s m) : '[' ∉ s.take m := by
  intro hmem
  have := phone_consumed_digit h _ hmem
  exact absurd this (by decide)

lemma ssn_noLB {pv : Option Char} {s : List Char} {m : Nat}
    (h : Parses ssnPattern pv s m) : '[' ∉ s.take m := by
  intro hmem
  rcases ssn_consumed h _ hmem with h1 | h1
  · exact absurd h1 (by decide)
  · exact absurd h1 (by decide)

lemma transplant0 {Q P : List RItem} {prev : Option Char} {s out : List Char}
    {m : Nat}
    (hQ : SubRel Q redactedToken prev s out)
    (hPpos : ∀ pv w k, Parses P pv w k → 1 ≤ k)
    (hPtrail : ∃ L, P = L ++ [RItem.wordB])
    (hPnoLB : ∀ pv w k, Parses P pv w k → '[' ∉ w.take k)
    (hQlead : ∀ pv w k, Parses Q pv w k → wordBoundary pv w.head? = true)
    (hparse : Parses P prev out m) : ∃ m', Parses P prev s m' := by
  rcases SubRel_decomp hQ with heq | ⟨seg, n, s2, out2, hs, ho, hm2, _⟩
  · exact ⟨m, by rwa [heq] at hparse⟩
  subst hs
  subst ho
  have hmle : m ≤ seg.length := by
    by_contra hgt
    push_neg at hgt
    have hin : '[' ∈ (seg ++ (redactedToken ++ out2)).take m := by
      have hsplit : m = seg.length + (m - seg.length) := by omega
      rw [hsplit, List.take_append]
      refine List.mem_append_right _ ?_
      cases hms : m - seg.length with
      | zero => omega
      | succ j =>
          rw [show redactedToken ++ out2 = '[' :: ("REDACTED]".data ++ out2) from rfl,
              List.take_succ_cons]
          exact List.mem_cons_self _ _
    exact hPnoLB _ _ _ hparse hin
  rcases Nat.lt_or_ge m seg.length with hlt | hge
  · refine ⟨m, parses_transport hparse (seg ++ s2) ?_ ?_⟩
    · rw [List.take_append_of_le_length (le_of_lt hlt),
          List.take_append_of_le_length (le_of_lt hlt)]
    · rw [List.drop_append_of_le_length (le_of_lt hlt),
          List.drop_append_of_le_length (le_of_lt hlt)]
      cases hd : seg.drop m with
      | nil =>
          exfalso
          have := congrArg List.length hd
          rw [List.length_drop] at this
          simp at this
          omega
      | cons d0 w0 => rw [List.cons_append, List.cons_append]; rfl
  · have hmeq : m = seg.length := le_antisymm hmle hge
    subst hmeq
    have hpos := hPpos _ _ _ hparse
    have hsegne : seg ≠ [] := by
      intro h0
      rw [h0] at hpos
      simp at hpos
  -- the occurrence ends exactly where the replaced match begins
    obtain ⟨L, hPL⟩ := hPtrail
    have htr := parses_trailing_wordB L (by rw [← hPL]; exact hparse)
    rw [List.take_left, List.drop_left] at htr
    have htr2 : wclass (prevAfter prev seg) = true := by
      rw [wordBoundary_wclass,
          show (redactedToken ++ out2).head? = some '[' from rfl,
          show wclass (some '[') = false from rfl] at htr
      revert htr
      cases wclass (prevAfter prev seg) <;> simp
    have hQp := matchPat_sound _ _ _ _ hm2
    have hlead := hQlead _ _ _ hQp
    have hs2w : wclass s2.head? = false := by
      rw [wordBoundary_wclass, htr2] at hlead
      revert hlead
      cases wclass s2.head? <;> simp
    refine ⟨seg.length, parses_transport hparse (seg ++ s2) ?_ ?_⟩
    · rw [List.take_left, List.take_left]
    · rw [List.drop_left, List.drop_left, hs2w,
          show (redactedToken ++ out2).head? = some '[' from rfl,
          show wclass (some '[') = false from rfl]

lemma noP_of_subrel {Q P : List RItem}
    (hQlead : ∀ pv w k, Parses Q pv w k → wordBoundary pv w.head? = true)
    (hQtrail : ∃ L, Q = L ++ [RItem.wordB])
    (hPpos : ∀ pv w k, Parses P pv w k → 1 ≤ k)
    (hPlead : ∀ pv w k, Parses P pv w k → wordBoundary pv w.head? = true)
    (hPtrail : ∃ L, P = L ++ [RItem.wordB])
    (hPnoLB : ∀ pv w k, Parses P pv w k → '[' ∉ w.take k)
    (hPtok : ∀ i, i ≤ 9 → ∀ out2 pv k,
      ¬ Parses P pv (redactedToken.drop i ++ out2) k) :
    ∀ {s out : List Char} {prev : Option Char},
      SubRel Q redactedToken prev s out →
      (P = Q ∨ NoP P prev s) → NoP P prev out := by
  intro s out prev h
  induction h with
  | nil =>
      intro _ u v m huv hp
      obtain ⟨hu0, hv0⟩ := List.append_eq_nil.mp huv.symm
      subst hv0
      have h1 := parses_le hp
      have h2 := hPpos _ _ _ hp
      simp at h1
      omega
  | @keep prev c s' out' hnm htail ih =>
      intro hside u v m huv hp
      cases u with
      | nil =>
          rw [List.nil_append] at huv
          subst huv
          have hd : SubRel Q redactedToken prev (c :: s') (c :: out') :=
            SubRel.keep hnm htail
          obtain ⟨m', hp'⟩ := transplant0 hd hPpos hPtrail hPnoLB hQlead hp
          rcases hside with rfl | hnop
          · obtain ⟨m'', hm''⟩ := matchPat_complete hp'
            rw [hnm] at hm''
            exact Option.noConfusion hm''
          · exact hnop [] (c :: s') m' rfl hp'
      | cons c0 u' =>
          injection huv with h1 h2
          subst h1
          have hside' : P = Q ∨ NoP P (some c) s' := by
            rcases hside with rfl | hnop
            · exact Or.inl rfl
            · exact Or.inr (NoP_cons hnop)
          refine ih hside' u' v m h2 ?_
          rwa [prevAfter_cons] at hp
  | @redactHere prev c s' out' n hm htail ih =>
      intro hside u v m huv hp
      have hside' : P = Q ∨
          NoP P (prevAfter prev (c :: List.take n s')) (List.drop n s') := by
        rcases hside with rfl | hnop
        · exact Or.inl rfl
        · exact Or.inr (NoP_drop hnop (n + 1))
      have hout' := ih hside'
      rcases Nat.lt_or_ge u.length 10 with hu10 | hu10
      · have hulen : u.length ≤ redactedToken.length := by
          rw [show redactedToken.length = 10 from rfl]
          omega
        have hveq : v = redactedToken.drop u.length ++ out' := by
          have h1 := congrArg (List.drop u.length) huv
          rw [List.drop_append_of_le_length hulen, List.drop_left] at h1
          exact h1.symm
        rw [hveq] at hp
        exact hPtok u.length (by omega) out' _ m hp
      · have h10 : redactedToken.length = 10 := rfl
        have hueq : redactedToken ++ u.drop 10 = u := by
          have h1 : (redactedToken ++ out').take redactedToken.length =
              redactedToken := List.take_left _ _
          rw [huv, List.take_append_of_le_length (by omega)] at h1
          calc redactedToken ++ u.drop 10
              = u.take redactedToken.length ++ u.drop 10 := by rw [h1]
            _ = u.take 10 ++ u.drop 10 := by rw [h10]
            _ = u := List.take_append_drop 10 u
        have houteq : out' = u.drop 10 ++ v := by
          have h1 := congrArg (List.drop redactedToken.length) huv
          rw [List.drop_left, List.drop_append_of_le_length (by omega)] at h1
          rw [h1, h10]
        cases hud : u.drop 10 with
        | nil =>
            have hveq : out' = v := by rw [houteq, hud, List.nil_append]
            have hctx : prevAfter prev u = some ']' := by
              rw [← hueq, hud, List.append_nil]
              rfl
            rw [hctx] at hp
            cases hw2 : wclass (prevAfter prev (c :: List.take n s')) with
            | false =>
                have hp' := parses_prev_transport hp
                  (prevAfter prev (c :: List.take n s'))
                  (by rw [show wclass (some ']') = false from rfl, hw2])
                exact hout' [] v m (by rw [hveq]; rfl) hp'
            | true =>
                exfalso
                obtain ⟨LQ, hLQ⟩ := hQtrail
                have hQp := matchPat_sound _ _ _ _ hm
                have htr := parses_trailing_wordB LQ (by rw [← hLQ]; exact hQp)
                have htr' : wordBoundary (prevAfter prev (c :: List.take n s'))
                    (List.drop n s').head? = true := htr
                have hsw : wclass (List.drop n s').head? = false := by
                  rw [wordBoundary_wclass, hw2] at htr'
                  revert htr'
                  cases wclass (List.drop n s').head? <;> simp
                have hb := hPlead _ _ _ hp
                have hvw : wclass v.head? = true := by
                  rw [wordBoundary_wclass,
                      show wclass (some ']') = false from rfl] at hb
                  revert hb
                  cases wclass v.head? <;> simp
                rcases SubRel_head htail with h0 | h0 | h0
                · rw [← hveq, h0] at hvw
                  exact absurd hvw (by decide)
                · rw [← hveq, h0, hsw] at hvw
                  exact Bool.false_ne_true hvw
                · rw [← hveq, h0] at hvw
                  exact absurd hvw (by decide)
        | cons c1 u''' =>
            refine hout' (c1 :: u''') v m (by rw [houteq, hud]) ?_
            have hctx : prevAfter prev u =
                prevAfter (prevAfter prev (c :: List.take n s')) (c1 :: u''') := by
              rw [← hueq, hud, prevAfter_append]
              exact prevAfter_ne_nil _ _ _ (by simp)
            rwa [hctx] at hp

lemma subScan_id (pat : List RItem) (repl : List Char) :
    ∀ (s : List Char) (prev : Option Char),
      (∀ u v, s = u ++ v → matchPat pat (prevAfter prev u) v = none) →
      subScan pat repl prev s = s := by
  intro s
  induction s with
  | nil => intro prev _; rw [subScan]
  | cons c s' ih =>
      intro prev hnm
      have h0 : matchPat pat prev (c :: s') = none := hnm [] (c :: s') rfl
      have hrec : subScan pat repl (some c) s' = s' :=
        ih (some c) (fun u v huv => by
          have hx := hnm (c :: u) v (by rw [huv]; rfl)
          rwa [prevAfter_cons] at hx)
      rw [subScan, h0]
      show c :: subScan pat repl (some c) s' = c :: s'
      rw [hrec]

lemma noP_matchPat_none {P : List RItem} {prev : Option Char} {s : List Char}
    (h : NoP P prev s) :
    ∀ u v, s = u ++ v → matchPat P (prevAfter prev u) v = none := by
  intro u v huv
  cases hmp : matchPat P (prevAfter prev u) v with
  | none => rfl
  | some k => exact absurd (matchPat_sound _ _ _ _ hmp) (h u v k huv)

lemma email_trail_fact : ∃ L, emailPattern = L ++ [RItem.wordB] :=
  ⟨[RItem.wordB, RItem.cls emailLocalChar 1 none, litItem '@',
    RItem.cls emailDomainChar 1 none, litItem '.',
    RItem.cls emailTldChar 2 none], rfl⟩

lemma phone_trail_fact : ∃ L, phonePattern = L ++ [RItem.wordB] :=
  ⟨[RItem.wordB, RItem.cls Char.isDigit 10 (some 10)], rfl⟩

lemma ssn_trail_fact : ∃ L, ssnPattern = L ++ [RItem.wordB] :=
  ⟨[RItem.wordB, RItem.cls Char.isDigit 3 (some 3), litItem '-',
    RItem.cls Char.isDigit 2 (some 2), litItem '-',
    RItem.cls Char.isDigit 4 (some 4)], rfl⟩

lemma noP_email_of_subrel {Q : List RItem}
    (hQlead : ∀ pv w k, Parses Q pv w k → wordBoundary pv w.head? = true)
    (hQtrail : ∃ L, Q = L ++ [RItem.wordB]) :
    ∀ {s out : List Char} {prev : Option Char},
      SubRel Q redactedToken prev s out →
      (emailPattern = Q ∨ NoP emailPattern prev s) → NoP emailPattern prev out :=
  noP_of_subrel hQlead hQtrail
    (fun _ _ _ h => parses_emailPattern_pos h)
    (fun _ _ _ h => email_lead h)
    email_trail_fact
    (fun _ _ _ h => (email_not_bracket h).1)
    email_tok

lemma noP_phone_of_subrel {Q : List RItem}
    (hQlead : ∀ pv w k, Parses Q pv w k → wordBoundary pv w.head? = true)
    (hQtrail : ∃ L, Q = L ++ [RItem.wordB]) :
    ∀ {s out : List Char} {prev : Option Char},
      SubRel Q redactedToken prev s out →
      (phonePattern = Q ∨ NoP phonePattern prev s) → NoP phonePattern prev out :=
  noP_of_subrel hQlead hQtrail
    (fun _ _ _ h => parses_phonePattern_pos h)
    (fun _ _ _ h => phone_lead h)
    phone_trail_fact
    (fun _ _ _ h => phone_noLB h)
    phone_tok

lemma noP_ssn_of_subrel {Q : List RItem}
    (hQlead : ∀ pv w k, Parses Q pv w k → wordBoundary pv w.head? = true)
    (hQtrail : ∃ L, Q = L ++ [RItem.wordB]) :
    ∀ {s out : List Char} {prev : Option Char},
      SubRel Q redactedToken prev s out →
      (ssnPattern = Q ∨ NoP ssnPattern prev s) → NoP ssnPattern prev out :=
  noP_of_subrel hQlead hQtrail
    (fun _ _ _ h => parses_ssnPattern_pos h)
    (fun _ _ _ h => ssn_lead h)
    ssn_trail_fact
    (fun _ _ _ h => ssn_noLB h)
    ssn_tok

/-- C9: redaction is idempotent — applying `redact_sensitive_info` to
already-redacted text changes nothing, because the redacted output contains
no further occurrence of the email, phone or SSN pattern. -/
theorem redact_idempotent (t : String) :
    redact_sensitive_info (redact_sensitive_info t) = redact_sensitive_info t := by
  have hS1 : SubRel emailPattern redactedToken none t.data
      (reSub emailPattern redactedToken t.data) :=
    reSub_subRel _ _ (fun _ _ _ h => matchPat_emailPattern_pos h) t.data
  have hS2 : SubRel phonePattern redactedToken none
      (reSub emailPattern redactedToken t.data)
      (reSub phonePattern redactedToken (reSub emailPattern redactedToken t.data)) :=
    reSub_subRel _ _ (fun _ _ _ h => matchPat_phonePattern_pos h) _
  have hS3 : SubRel ssnPattern redactedToken none
      (reSub phonePattern redactedToken (reSub emailPattern redactedToken t.data))
      (reSub ssnPattern redactedToken
        (reSub phonePattern redactedToken (reSub emailPattern redactedToken t.data))) :=
    reSub_subRel _ _ (fun _ _ _ h => matchPat_ssnPattern_pos h) _
  have nEM1 := noP_email_of_subrel
    (fun _ _ _ h => email_lead h) email_trail_fact hS1 (Or.inl rfl)
  have nPH2 := noP_phone_of_subrel
    (fun _ _ _ h => phone_lead h) phone_trail_fact hS2 (Or.inl rfl)
  have nEM2 := noP_email_of_subrel
    (fun _ _ _ h => phone_lead h) phone_trail_fact hS2 (Or.inr nEM1)
  have nSS3 := noP_ssn_of_subrel
    (fun _ _ _ h => ssn_lead h) ssn_trail_fact hS3 (Or.inl rfl)
  have nEM3 := noP_email_of_subrel
    (fun _ _ _ h => ssn_lead h) ssn_trail_fact hS3 (Or.inr nEM2)
  have nPH3 := noP_phone_of_subrel
    (fun _ _ _ h => ssn_lead h) ssn_trail_fact hS3 (Or.inr nPH2)
  have e1 := subScan_id emailPattern redactedToken _ none (noP_matchPat_none nEM3)
  have e2 := subScan_id phonePattern redactedToken _ none (noP_matchPat_none nPH3)
  have e3 := subScan_id ssnPattern redactedToken _ none (noP_matchPat_none nSS3)
  show (⟨reSub ssnPattern redactedToken (reSub phonePattern redactedToken
      (reSub emailPattern redactedToken
        (reSub ssnPattern redactedToken (reSub phonePattern redactedToken
          (reSub emailPattern redactedToken t.data)))))⟩ : String) =
    ⟨reSub ssnPattern redactedToken (reSub phonePattern redactedToken
      (reSub emailPattern redactedToken t.data))⟩
  rw [show reSub emailPattern redactedToken
        (reSub ssnPattern redactedToken (reSub phonePattern redactedToken
          (reSub emailPattern redactedToken t.data))) =
      reSub ssnPattern redactedToken (reSub phonePattern redactedToken
        (reSub emailPattern redactedToken t.data)) from e1]
  rw [show reSub phonePattern redactedToken
        (reSub ssnPattern redactedToken (reSub phonePattern redactedToken
          (reSub emailPattern redactedToken t.data))) =
      reSub ssnPattern redactedToken (reSub phonePattern redactedToken
        (reSub emailPattern redactedToken t.data)) from e2]
  rw [show reSub ssnPattern redactedToken
        (reSub ssnPattern redactedToken (reSub phonePattern redactedToken
          (reSub emailPattern redactedToken t.data))) =
      reSub ssnPattern redactedToken (reSub phonePattern redactedToken
        (reSub emailPattern redactedToken t.data)) from e3]

end TicketSummarizer
